import Mathlib

/-!
# rcf — row-columnar file engine, verified model

A shallow embedding of the `rcf` package (append-only columnar file with
per-batch metadata). Files are modelled as `List Nat` of byte values, the
codec as an executable serializer over a small universe `Val` of user
values, and each exported operation (`New`, `Append`, `validate`,
`IterMetas`, `Iter`) as a pure function translated from the Go source.
The concurrent read pipeline of `Iter` (framer / parallel decoders /
serial callback) is modelled as a small labelled transition system over
explicit schedules.
-/

namespace Rcf

/-! ## User values

The engine is oblivious to the concrete value types; rows, metadata and
column arrays are drawn from this universe. -/

/-- A user value: integers, booleans, and nested lists (covering the
slices the tests store in columns). -/
inductive Val : Type where
  | vInt  : Int → Val
  | vBool : Bool → Val
  | vList : List Val → Val
deriving Repr

mutual

/-- Boolean equality on `Val` (the nested list forces a hand-rolled
instance). -/
def Val.beq : Val → Val → Bool
  | .vInt a, .vInt b => a == b
  | .vBool a, .vBool b => a == b
  | .vList as, .vList bs => Val.beqs as bs
  | _, _ => false

/-- Boolean equality on `List Val`. -/
def Val.beqs : List Val → List Val → Bool
  | [], [] => true
  | a :: as, b :: bs => Val.beq a b && Val.beqs as bs
  | _, _ => false

end

mutual

theorem Val.beq_iff : ∀ a b : Val, Val.beq a b = true ↔ a = b
  | .vInt a, .vInt b => by simp [Val.beq]
  | .vInt _, .vBool _ => by simp [Val.beq]
  | .vInt _, .vList _ => by simp [Val.beq]
  | .vBool _, .vInt _ => by simp [Val.beq]
  | .vBool a, .vBool b => by simp [Val.beq]
  | .vBool _, .vList _ => by simp [Val.beq]
  | .vList _, .vInt _ => by simp [Val.beq]
  | .vList _, .vBool _ => by simp [Val.beq]
  | .vList as, .vList bs => by
    simp [Val.beq, Val.beqs_iff as bs]

theorem Val.beqs_iff : ∀ as bs : List Val, Val.beqs as bs = true ↔ as = bs
  | [], [] => by simp [Val.beqs]
  | [], _ :: _ => by simp [Val.beqs]
  | _ :: _, [] => by simp [Val.beqs]
  | a :: as, b :: bs => by
    simp [Val.beqs, Val.beq_iff a b, Val.beqs_iff as bs]

end

instance : DecidableEq Val :=
  fun a b => decidable_of_iff _ (Val.beq_iff a b)

/-- A row: an aggregate given by its attribute names and values, in
declaration order.  `reflect.Value.FieldByName` is lookup of the first
matching name. -/
def Row : Type := List (String × Val)

instance : DecidableEq Row := by unfold Row; infer_instance

/-- Go `row.FieldByName c`: `some` value of the first field named `c`,
`none` (the invalid `reflect.Value`) when the row has no such field. -/
def rowField (r : Row) (c : String) : Option Val :=
  (r.find? (fun p => p.1 = c)).map (·.2)

/-- The column array for `c` extracted from `rows` in order (the pivot of
`Append`); rows lacking the attribute contribute nothing, but `Append`
panics on those before using the result. -/
def colVals (rows : List Row) (c : String) : List Val :=
  rows.filterMap (fun r => rowField r c)

/-! ## Codec

The Go code delegates to a pluggable serializer (gob/cbor/json, optionally
compressed).  The model keeps the codec abstract as a `Codec` record and
provides one concrete executable instance `valCodec` with a proven
round-trip, which is all the engine relies on. -/

/-- Unary byte encoding of a natural number: `n` ones then a zero. -/
def encNat (n : Nat) : List Nat :=
  List.replicate n 1 ++ [0]

/-- Decoder for `encNat`; returns the value and the remaining bytes. -/
def decNat : List Nat → Option (Nat × List Nat)
  | 0 :: rest => some (0, rest)
  | 1 :: rest =>
    match decNat rest with
    | some (n, r) => some (n + 1, r)
    | none => none
  | _ => none

theorem decNat_encNat (n : Nat) (rest : List Nat) :
    decNat (encNat n ++ rest) = some (n, rest) := by
  induction n with
  | zero => rfl
  | succ n ih =>
    have h : encNat (n + 1) ++ rest = 1 :: (encNat n ++ rest) := by
      simp [encNat, List.replicate_succ]
    rw [h]
    simp [decNat, ih]

/-- Sign byte then unary magnitude. -/
def encInt (i : Int) : List Nat :=
  (if i < 0 then 1 else 0) :: encNat i.natAbs

/-- Decoder for `encInt`. -/
def decInt : List Nat → Option (Int × List Nat)
  | 0 :: rest => (decNat rest).map (fun p => ((p.1 : Int), p.2))
  | 1 :: rest => (decNat rest).map (fun p => (-(p.1 : Int), p.2))
  | _ => none

theorem decInt_encInt (i : Int) (rest : List Nat) :
    decInt (encInt i ++ rest) = some (i, rest) := by
  by_cases h : i < 0
  · simp [encInt, if_pos h, decInt, decNat_encNat, abs_of_neg h]
  · have hi : ((i.natAbs : Int)) = i := by omega
    simp [encInt, if_neg h, decInt, decNat_encNat, hi]

mutual

/-- Byte serialization of a `Val`: tag byte then payload; lists use a
cons/nil marker so no length prefix is needed. -/
def encVal : Val → List Nat
  | .vInt i => 0 :: encInt i
  | .vBool b => 1 :: (if b then 1 else 0) :: []
  | .vList vs => 2 :: encVals vs

/-- Serialization of a list of values: `1 v` per element, closed by `0`. -/
def encVals : List Val → List Nat
  | [] => [0]
  | v :: vs => 1 :: (encVal v ++ encVals vs)

end

mutual

/-- Fuelled decoder for `encVal`. -/
def decValF : Nat → List Nat → Option (Val × List Nat)
  | 0, _ => none
  | fuel + 1, bs =>
    match bs with
    | 0 :: rest =>
      match decInt rest with
      | some (i, r) => some (.vInt i, r)
      | none => none
    | 1 :: 0 :: rest => some (.vBool false, rest)
    | 1 :: 1 :: rest => some (.vBool true, rest)
    | 2 :: rest =>
      match decValsF fuel rest with
      | some (vs, r) => some (.vList vs, r)
      | none => none
    | _ => none

/-- Fuelled decoder for `encVals`. -/
def decValsF : Nat → List Nat → Option (List Val × List Nat)
  | 0, _ => none
  | fuel + 1, bs =>
    match bs with
    | 0 :: rest => some ([], rest)
    | 1 :: rest =>
      match decValF fuel rest with
      | some (v, r) =>
        match decValsF fuel r with
        | some (vs, r2) => some (v :: vs, r2)
        | none => none
      | none => none
    | _ => none

end

theorem encVal_length_pos (v : Val) : 0 < (encVal v).length := by
  cases v <;> simp [encVal]

theorem encVals_length_pos (vs : List Val) : 0 < (encVals vs).length := by
  cases vs <;> simp [encVals]

mutual

theorem decValF_encVal : ∀ (v : Val) (rest : List Nat) (fuel : Nat),
    (encVal v).length ≤ fuel → decValF fuel (encVal v ++ rest) = some (v, rest)
  | v, _, 0, h => by
    have := encVal_length_pos v
    omega
  | .vInt i, rest, fuel + 1, _ => by
    simp [encVal, decValF, decInt_encInt]
  | .vBool b, rest, fuel + 1, _ => by
    cases b <;> simp [encVal, decValF]
  | .vList vs, rest, fuel + 1, h => by
    have h' : (encVals vs).length ≤ fuel := by
      simp [encVal] at h
      omega
    simp [encVal, decValF, decValsF_encVals vs rest fuel h']

theorem decValsF_encVals : ∀ (vs : List Val) (rest : List Nat) (fuel : Nat),
    (encVals vs).length ≤ fuel → decValsF fuel (encVals vs ++ rest) = some (vs, rest)
  | vs, _, 0, h => by
    have := encVals_length_pos vs
    omega
  | [], rest, fuel + 1, _ => by
    simp [encVals, decValsF]
  | v :: vs, rest, fuel + 1, h => by
    have h1 : (encVal v).length ≤ fuel := by
      simp [encVals] at h
      omega
    have h2 : (encVals vs).length ≤ fuel := by
      simp [encVals] at h
      omega
    simp [encVals, decValsF, decValF_encVal v (encVals vs ++ rest) fuel h1,
      decValsF_encVals vs rest fuel h2]

end

/-- Decode one value from a whole blob, requiring full consumption (a blob
holds exactly one encoded value). -/
def decodeBlob (bs : List Nat) : Option Val :=
  match decValF bs.length bs with
  | some (v, []) => some v
  | _ => none

theorem decodeBlob_encVal (v : Val) : decodeBlob (encVal v) = some v := by
  have h := decValF_encVal v [] (encVal v).length (by omega)
  rw [List.append_nil] at h
  simp [decodeBlob, h]

/-- The pluggable codec boundary: `enc` may fail (Go's encoder returns an
error), `dec` returns `none` on malformed bytes. -/
structure Codec : Type where
  enc : Val → Except String (List Nat)
  dec : List Nat → Option Val

/-- The standard codec used for the round-trip results: total encoding via
`encVal`, decoding via `decodeBlob`. -/
def valCodec : Codec where
  enc := fun v => .ok (encVal v)
  dec := decodeBlob

/-! ## Frame layout

One batch on disk: a 1-byte column-set count `K`, a little-endian 4-byte
metadata length, `K` little-endian 4-byte column-set lengths, then the
metadata blob and the `K` column-set blobs in factory index order. -/

/-- Little-endian 4-byte encoding, as written by `binary.Write` of a
`uint32` (lengths not below `2^32` are silently truncated, as in Go). -/
def le32 (n : Nat) : List Nat :=
  [n % 256, n / 256 % 256, n / 256 ^ 2 % 256, n / 256 ^ 3 % 256]

/-- Read one little-endian 4-byte value (`binary.Read` of a `uint32`);
`none` when fewer than 4 bytes remain. -/
def rdLe32 : List Nat → Option (Nat × List Nat)
  | a :: b :: c :: d :: rest => some (a + 256 * b + 256 ^ 2 * c + 256 ^ 3 * d, rest)
  | _ => none

/-- Read `k` consecutive little-endian 4-byte values. -/
def rdLe32s : Nat → List Nat → Option (List Nat × List Nat)
  | 0, bs => some ([], bs)
  | k + 1, bs =>
    match rdLe32 bs with
    | none => none
    | some (l, bs') =>
      match rdLe32s k bs' with
      | none => none
      | some (ls, bs'') => some (l :: ls, bs'')

/-- `io.ReadFull` of `l` bytes: fails (short read) unless `l` bytes
remain. -/
def readN (l : Nat) (bs : List Nat) : Option (List Nat × List Nat) :=
  if l ≤ bs.length then some (bs.take l, bs.drop l) else none

/-- The byte image of one batch, exactly as `Append`'s write section emits
it: count byte, meta length, set lengths, meta blob, set blobs. -/
def batchBytes (metaBin : List Nat) (bins : List (List Nat)) : List Nat :=
  [bins.length] ++ le32 metaBin.length ++ (bins.map (fun b => le32 b.length)).flatten
    ++ metaBin ++ bins.flatten

/-! ## Writer (`Append`)

`Append` encodes the metadata, pivots the rows into per-column arrays
(panicking through reflection when a non-empty `rows` slice lacks a declared
column), populates and encodes each column-set value, then writes the
frame.  All encoding happens before any byte is written. -/

/-- Whether the reflection pivot succeeds: vacuously for zero rows
(the column slices are simply never created); otherwise every declared
column name must be an attribute of every row — `row.FieldByName(col)`
on a missing attribute yields the invalid `reflect.Value`, whose `Type()`
(or `reflect.Append`) panics. -/
def pivotOk (cs : List (List String)) (rows : List Row) : Bool :=
  rows.isEmpty || cs.flatten.all (fun c => rows.all (fun r => (rowField r c).isSome))

/-- The column-set value for `set` populated from the pivot of `rows`:
an aggregate holding one array per column, in field order. -/
def setValOf (set : List String) (rows : List Row) : Val :=
  .vList (set.map (fun c => .vList (colVals rows c)))

/-- Encode every column-set value in factory index order; the first
failure aborts with the `encode column set` error. -/
def encSetsE (cdc : Codec) (cs : List (List String)) (rows : List Row) :
    Except String (List (List Nat)) :=
  match cs with
  | [] => .ok []
  | set :: rest =>
    match cdc.enc (setValOf set rows) with
    | .error _ => .error "encode column set"
    | .ok bin =>
      match encSetsE cdc rest rows with
      | .error e => .error e
      | .ok bins => .ok (bin :: bins)

/-- Outcome of the pure part of `Append` (everything before the write):
a reflection panic, an error return, or the frame bytes to append. -/
inductive CoreRes : Type where
  | panic : CoreRes
  | fail : String → CoreRes
  | payload : List Nat → CoreRes
deriving DecidableEq, Repr

/-- The pure part of `Append`, in source order: encode meta, pivot rows,
populate and encode the column sets, check `K ≤ 255`, build the frame. -/
def appendCore (cdc : Codec) (cs : List (List String)) (rows : List Row)
    (meta : Val) : CoreRes :=
  match cdc.enc meta with
  | .error _ => .fail "encode meta"
  | .ok metaBin =>
    if pivotOk cs rows then
      match encSetsE cdc cs rows with
      | .error e => .fail e
      | .ok bins =>
        if 255 < bins.length then .fail "more than 255 column sets"
        else .payload (batchBytes metaBin bins)
    else .panic

/-- Observable result of one `Append` call. -/
inductive ARes : Type where
  | panicked : ARes
  | failed : String → ARes
  | ok : ARes
deriving DecidableEq, Repr

/-- `Append` with the write offset already at end of file (the steady
state after a successful validation): on success the frame is appended,
on error or panic the file is untouched since no write was reached. -/
def appendF (cdc : Codec) (cs : List (List String)) (rows : List Row)
    (meta : Val) (file : List Nat) : ARes × List Nat :=
  match appendCore cdc cs rows meta with
  | .panic => (.panicked, file)
  | .fail m => (.failed m, file)
  | .payload bs => (.ok, file ++ bs)

/-- A sequence of `Append` calls on a fresh file, in order; `none` as soon
as one call does not return `ok`. -/
def appendSeq (cdc : Codec) (cs : List (List String)) :
    List (List Row × Val) → List Nat → Option (List Nat)
  | [], file => some file
  | b :: bs, file =>
    match appendF cdc cs b.1 b.2 file with
    | (.ok, f') => appendSeq cdc cs bs f'
    | _ => none

/-! ## Validator

On the first write after open, `validate` scans from offset 0: read the
count byte (EOF stops the scan), the meta length and the set lengths, then
`Seek` forward by their sum.  A seek past EOF succeeds (POSIX), so the
scan can leave the offset beyond the end of the file; a partially read
header leaves the offset wherever the short read stopped. -/

/-- Read `k` bytes at `pos` (`binary.Read`/`io.ReadFull` semantics): on a
short read the offset advances over whatever bytes existed and the read
fails; 0 available bytes also fail here (the callers treat every error of
these inner reads alike). -/
def readAt (file : List Nat) (pos k : Nat) : Option (List Nat) × Nat :=
  if pos + k ≤ file.length then (some ((file.drop pos).take k), pos + k)
  else (none, max pos file.length)

/-- Little-endian value of a byte list. -/
def leVal (bs : List Nat) : Nat := bs.foldr (fun b acc => b + 256 * acc) 0

/-- Read `k` consecutive 4-byte lengths starting at `pos`. -/
def readLens (file : List Nat) : Nat → Nat → Option (List Nat) × Nat
  | pos, 0 => (some [], pos)
  | pos, k + 1 =>
    match readAt file pos 4 with
    | (none, p) => (none, p)
    | (some bs, p) =>
      match readLens file p k with
      | (none, p') => (none, p')
      | (some ls, p') => (some (leVal bs :: ls), p')

/-- Continuation after the set-length reads of one scan iteration: on
success, seek over the payload (meta length plus set lengths) and loop
via `next`. -/
def validateAfterLens (next : Nat → Option String × Nat) (mbs : List Nat) :
    Option (List Nat) × Nat → Option String × Nat
  | (none, p') => (some "read column set length", p')
  | (some lens, p') => next (p' + leVal mbs + lens.sum)

/-- Continuation after the meta-length read of one scan iteration. -/
def validateAfterCount (file : List Nat) (next : Nat → Option String × Nat)
    (pos : Nat) : Option (List Nat) × Nat → Option String × Nat
  | (none, p) => (some "read meta length", p)
  | (some mbs, p) =>
    validateAfterLens next mbs (readLens file p (file.getD pos 0))

/-- The `validate` scan from offset `pos`: first component is the
structural error (if any), second the final file offset.  One loop
iteration reads the count byte (EOF ends the scan), the meta length, the
set lengths, then seeks over the payload. -/
def validateGo : Nat → List Nat → Nat → Option String × Nat
  | 0, _, pos => (none, pos)
  | fuel + 1, file, pos =>
    if file.length ≤ pos then (none, pos)
    else validateAfterCount file (validateGo fuel file) pos
      (readAt file (pos + 1) 4)

/-- One full `validate` run from offset 0 (a batch consumes at least 5
bytes, so `length + 1` fuel is never exhausted). -/
def validateRun (file : List Nat) : Option String × Nat :=
  validateGo (file.length + 1) file 0

/-- Write `bs` at offset `pos` of `file`: overwrites in place, zero-fills
any gap between EOF and `pos` (POSIX write past EOF). -/
def writeAt (file : List Nat) (pos : Nat) (bs : List Nat) : List Nat :=
  file.take pos ++ List.replicate (pos - file.length) 0 ++ bs
    ++ file.drop (pos + bs.length)

/-- The first `Append` on a handle: runs `validate` — whose returned error
the Go code discards (`f.validate()` with the result unused) — and then
writes at whatever offset the scan left. -/
def firstAppend (cdc : Codec) (cs : List (List String)) (file : List Nat)
    (rows : List Row) (meta : Val) : ARes × List Nat :=
  let pos := (validateRun file).2
  match appendCore cdc cs rows meta with
  | .panic => (.panicked, file)
  | .fail m => (.failed m, file)
  | .payload bs => (.ok, writeAt file pos bs)

/-- The 4-byte lengths stored at `pos`, `pos+4`, … (used to state where
batch boundaries lie). -/
def lensAt (file : List Nat) : Nat → Nat → List Nat
  | _, 0 => []
  | pos, k + 1 => leVal ((file.drop pos).take 4) :: lensAt file (pos + 4) k

/-- Size of the complete batch starting at `pos`, when header and payload
both lie fully inside the file; `none` at EOF or on a truncated batch. -/
def batchSizeAt (file : List Nat) (pos : Nat) : Option Nat :=
  if pos < file.length then
    if pos + 5 + 4 * file.getD pos 0 ≤ file.length then
      if pos + 5 + 4 * file.getD pos 0 + leVal ((file.drop (pos + 1)).take 4)
          + (lensAt file (pos + 5) (file.getD pos 0)).sum ≤ file.length then
        some (5 + 4 * file.getD pos 0 + leVal ((file.drop (pos + 1)).take 4)
          + (lensAt file (pos + 5) (file.getD pos 0)).sum)
      else none
    else none
  else none

/-- End offset of the longest prefix of complete batches starting at
`pos` — "the last valid batch boundary" of the spec. -/
def validBoundaryGo : Nat → List Nat → Nat → Nat
  | 0, _, pos => pos
  | fuel + 1, file, pos =>
    match batchSizeAt file pos with
    | some sz => validBoundaryGo fuel file (pos + sz)
    | none => pos

/-- The last valid batch boundary of the whole file. -/
def validBoundary (file : List Nat) : Nat :=
  validBoundaryGo (file.length + 1) file 0

/-! ## Reader

`IterMetas` reads each header, reads and decodes the metadata blob and
seeks over the column-set payloads.  `Iter` reads each header, seeks over
the metadata, reads the column-set blobs whose set intersects the
projection and seeks over the others, decodes the read blobs and collects
the requested column arrays — iterating sets in index order and fields in
declaration order.  EOF at a batch boundary ends the iteration normally;
a seek past EOF merely makes the next read hit EOF. -/

/-- Result of an iteration: the per-batch outputs in delivery order, or
the first error. -/
inductive Res (α : Type) : Type where
  | err : String → Res α
  | ok : α → Res α
deriving DecidableEq, Repr

/-- `toDecode[n]`: whether column set `n` holds at least one requested
column. -/
def toDecode (cs : List (List String)) (cols : List String) : List Bool :=
  cs.map (fun set => set.any (fun c => cols.contains c))

/-- The requested column names in the order `Iter` collects them: set
index order, field declaration order within a set. -/
def collectNames (cs : List (List String)) (cols : List String) : List String :=
  (cs.map (fun set => set.filter (fun c => cols.contains c))).flatten

/-- The `IterMetas` loop: metadata values in on-disk batch order. -/
def iterMetasF (cdc : Codec) : Nat → List Nat → Res (List Val)
  | 0, _ => .err "fuel"
  | fuel + 1, bs =>
    match bs with
    | [] => .ok []
    | numSets :: rest =>
      match rdLe32 rest with
      | none => .err "read meta length"
      | some (metaLen, rest) =>
        match rdLe32s numSets rest with
        | none => .err "read column set length"
        | some (lens, rest) =>
          match readN metaLen rest with
          | none => .err "read meta"
          | some (metaBin, rest) =>
            match cdc.dec metaBin with
            | none => .err "decode meta"
            | some v =>
              match iterMetasF cdc fuel (rest.drop lens.sum) with
              | .ok vs => .ok (v :: vs)
              | e => e

/-- `IterMetas` on a whole file (a batch consumes at least 5 bytes, so
`length + 1` fuel always suffices). -/
def iterMetas (cdc : Codec) (file : List Nat) : Res (List Val) :=
  iterMetasF cdc (file.length + 1) file

/-- Stage-1 handling of the column-set payloads of one batch: read the
blob when `toDecode` marks the set, seek over it otherwise; `none` models
the `read column set` short-read error. -/
def readSets (toDec : List Bool) :
    List Nat → List Nat → Nat → Option (List (Option (List Nat)) × List Nat)
  | [], bs, _ => some ([], bs)
  | l :: lens, bs, n =>
    if toDec.getD n false then
      match readN l bs with
      | none => none
      | some (blob, bs') =>
        match readSets toDec lens bs' (n + 1) with
        | none => none
        | some (os, r) => some (some blob :: os, r)
    else
      match readSets toDec lens (bs.drop l) (n + 1) with
      | none => none
      | some (os, r) => some (none :: os, r)

/-- View the fields of a decoded column-set value as arrays. -/
def asArraysList : List Val → Option (List (List Val))
  | [] => some []
  | .vList xs :: rest => (asArraysList rest).map (fun r => xs :: r)
  | _ => none

/-- View a decoded column-set value as its per-field arrays. -/
def asArrays : Val → Option (List (List Val))
  | .vList vs => asArraysList vs
  | _ => none

/-- Decode the read blobs and collect the requested column arrays, set by
set in index order (`nil` entries are sets that were skipped on disk). -/
def collectSets (cdc : Codec) (cs : List (List String)) (cols : List String) :
    List (Option (List Nat)) → Nat → Option (List (List Val))
  | [], _ => some []
  | none :: rest, n => collectSets cdc cs cols rest (n + 1)
  | some bs :: rest, n =>
    match cdc.dec bs with
    | none => none
    | some v =>
      match asArrays v with
      | none => none
      | some arrs =>
        let flags := (cs.getD n []).map (fun c => cols.contains c)
        let mine := (flags.zip arrs).filterMap
          (fun p => if p.1 then some p.2 else none)
        match collectSets cdc cs cols rest (n + 1) with
        | none => none
        | some others => some (mine ++ others)

/-- The `Iter` loop with in-order delivery: per batch, the list of
requested column arrays in collection order. -/
def iterColsF (cdc : Codec) (cs : List (List String)) (cols : List String) :
    Nat → List Nat → Res (List (List (List Val)))
  | 0, _ => .err "fuel"
  | fuel + 1, bs =>
    match bs with
    | [] => .ok []
    | numSets :: rest =>
      match rdLe32 rest with
      | none => .err "read meta length"
      | some (metaLen, rest) =>
        match rdLe32s numSets rest with
        | none => .err "read column set length"
        | some (lens, rest) =>
          match readSets (toDecode cs cols) lens (rest.drop metaLen) 0 with
          | none => .err "read column set"
          | some (blobs, rest') =>
            match collectSets cdc cs cols blobs 0 with
            | none => .err "decode column set"
            | some batchCols =>
              match iterColsF cdc cs cols fuel rest' with
              | .ok more => .ok (batchCols :: more)
              | e => e

/-- `Iter` on a whole file. -/
def iterCols (cdc : Codec) (cs : List (List String)) (cols : List String)
    (file : List Nat) : Res (List (List (List Val))) :=
  iterColsF cdc cs cols (file.length + 1) file

/-- The selected-blob pattern `readSets` produces for well-formed input:
blob `n` is kept iff `toDec` marks set `n`. -/
def selBins (toDec : List Bool) : Nat → List (List Nat) → List (Option (List Nat))
  | _, [] => []
  | n, b :: bs =>
    (if toDec.getD n false then some b else none) :: selBins toDec (n + 1) bs

/-! ## The concurrent read pipeline

The three-stage pipeline of `Iter`: the framer S1 produces batch work
items in on-disk order into a FIFO; each decoder task in S2 removes the
head item and, when its decoding finishes — at a schedule-dependent
moment — hands the result to the serial callback stage S3, which invokes
the user callback and stops everything once the callback returns `false`
(closing `done`; items still in flight are never delivered).  A schedule
is a list of `take`/`deliver` events. -/

/-- Pipeline state: items S1 has not yet framed, items taken by decoders
and not yet delivered, callback invocations so far, whether a callback
returned `false`, and the shared error slot written by `setErr` (the
value the iteration function returns at the end — `nil` means no
error). -/
structure PipeState (α : Type) : Type where
  pending : List α
  inflight : List α
  delivered : List α
  stopped : Bool
  err : Option String
deriving DecidableEq

/-- A scheduling event: a decoder takes the next work item, the decoder
holding in-flight item `i` completes and delivers it to S3, or some
stage hits an error and latches it into the shared slot. -/
inductive PAct : Type where
  | take : PAct
  | deliver : Nat → PAct
  | fail : String → PAct
deriving DecidableEq

/-- Whether a schedule event is a stage error. -/
def PAct.isFail : PAct → Bool
  | .fail _ => true
  | _ => false

/-- One scheduling step.  Delivery invokes the callback unless S3 already
stopped; nothing is ever delivered after a `false` return, and a `false`
return never touches the error slot — only a stage error (`setErr`)
does. -/
def pstep {α : Type} (cb : α → Bool) (s : PipeState α) : PAct → PipeState α
  | .take =>
    match s.pending with
    | [] => s
    | x :: rest => { s with pending := rest, inflight := s.inflight ++ [x] }
  | .deliver i =>
    if s.stopped then s
    else
      match s.inflight.get? i with
      | none => s
      | some x =>
        { s with inflight := s.inflight.eraseIdx i,
                 delivered := s.delivered ++ [x],
                 stopped := !cb x }
  | .fail m => { s with err := some m }

/-- Initial pipeline state for a file whose batches decode to `items`, in
on-disk order; no error latched. -/
def pinit {α : Type} (items : List α) : PipeState α := ⟨items, [], [], false, none⟩

/-- Run a schedule. -/
def prun {α : Type} (cb : α → Bool) (s : PipeState α) (acts : List PAct) :
    PipeState α :=
  acts.foldl (pstep cb) s

/-! ## Schema registry (`New`)

`New` opens (or creates) the file, then enumerates `colSetsFn 0, 1, …`
until the nil sentinel, reflecting each aggregate's field names in
declaration order.  The Go code performs no cross-set name comparison of
any kind and cannot fail after a successful file open. -/

/-- Enumerate factory results from index `n` until the nil sentinel. -/
def enumSets (factory : Nat → Option (List String)) : Nat → Nat → List (List String)
  | 0, _ => []
  | fuel + 1, n =>
    match factory n with
    | none => []
    | some set => set :: enumSets factory fuel (n + 1)

/-- `New` (its schema-building part, with the file open succeeding):
returns the handle's column sets; no name-collision check exists in the
source, so no error is possible. -/
def newFile (factory : Nat → Option (List String)) (fuel : Nat) :
    Res (List (List String)) :=
  .ok (enumSets factory fuel 0)

/-! ## Round-trip lemmas -/

/-- Hypotheses under which one `Append` succeeds and round-trips: every
row supplies every declared column (else the reflection pivot panics) and
every blob fits the 4-byte length field. -/
def GoodBatch (cs : List (List String)) (b : List Row × Val) : Prop :=
  (∀ r ∈ b.1, ∀ c ∈ cs.flatten, (rowField r c).isSome) ∧
  (encVal b.2).length < 2 ^ 32 ∧
  ∀ set ∈ cs, (encVal (setValOf set b.1)).length < 2 ^ 32

instance (cs : List (List String)) (b : List Row × Val) :
    Decidable (GoodBatch cs b) := by
  unfold GoodBatch
  infer_instance

/-- The encoded column-set blobs of one batch, in factory index order. -/
def setBins (cs : List (List String)) (rows : List Row) : List (List Nat) :=
  cs.map (fun set => encVal (setValOf set rows))

/-- The byte image `Append` writes for one batch under `valCodec`. -/
def encodedBatch (cs : List (List String)) (b : List Row × Val) : List Nat :=
  batchBytes (encVal b.2) (setBins cs b.1)

/-- The byte image of a whole file built by a sequence of appends. -/
def encodedFile (cs : List (List String)) (batches : List (List Row × Val)) :
    List Nat :=
  (batches.map (encodedBatch cs)).flatten

theorem rdLe32_le32 (n : Nat) (h : n < 2 ^ 32) (rest : List Nat) :
    rdLe32 (le32 n ++ rest) = some (n, rest) := by
  have e : n % 256 + 256 * (n / 256 % 256) + 256 ^ 2 * (n / 256 ^ 2 % 256)
      + 256 ^ 3 * (n / 256 ^ 3 % 256) = n := by omega
  simp only [le32, List.cons_append, List.nil_append, rdLe32, e]

theorem rdLe32s_bins (bins : List (List Nat)) (h : ∀ b ∈ bins, b.length < 2 ^ 32)
    (rest : List Nat) :
    rdLe32s bins.length ((bins.map (fun b => le32 b.length)).flatten ++ rest)
      = some (bins.map List.length, rest) := by
  induction bins with
  | nil => simp [rdLe32s]
  | cons b bs ih =>
    have hb : b.length < 2 ^ 32 := h b (by simp)
    have hbs : ∀ x ∈ bs, x.length < 2 ^ 32 := fun x hx => h x (by simp [hx])
    simp only [List.map_cons, List.flatten_cons, List.length_cons,
      List.append_assoc, rdLe32s, rdLe32_le32 b.length hb, ih hbs]

theorem readN_exact (bs rest : List Nat) :
    readN bs.length (bs ++ rest) = some (bs, rest) := by
  simp [readN, List.take_left, List.drop_left]

theorem drop_flatten_sum (bins : List (List Nat)) (rest : List Nat) :
    (bins.flatten ++ rest).drop (bins.map List.length).sum = rest := by
  rw [← List.length_flatten]
  exact List.drop_left _ _

theorem pivotOk_of_good (cs : List (List String)) (rows : List Row)
    (h : ∀ r ∈ rows, ∀ c ∈ cs.flatten, (rowField r c).isSome) :
    pivotOk cs rows = true := by
  cases rows with
  | nil => simp [pivotOk]
  | cons r rs =>
    simp only [pivotOk, List.isEmpty_cons, Bool.false_or, List.all_eq_true]
    intro c hc
    exact fun r' hr' => h r' hr' c hc

theorem valCodec_enc (v : Val) : valCodec.enc v = .ok (encVal v) := rfl

theorem valCodec_dec (bs : List Nat) : valCodec.dec bs = decodeBlob bs := rfl

theorem encSetsE_valCodec (cs : List (List String)) (rows : List Row) :
    encSetsE valCodec cs rows = .ok (setBins cs rows) := by
  induction cs with
  | nil => simp [encSetsE, setBins]
  | cons set rest ih => simp [encSetsE, valCodec_enc, ih, setBins]

theorem appendCore_valCodec (cs : List (List String)) (b : List Row × Val)
    (hk : cs.length ≤ 255) (hg : GoodBatch cs b) :
    appendCore valCodec cs b.1 b.2 = .payload (encodedBatch cs b) := by
  have hp := pivotOk_of_good cs b.1 hg.1
  have hl : ¬ 255 < (setBins cs b.1).length := by
    simp only [setBins, List.length_map]
    omega
  simp [appendCore, valCodec_enc, hp, encSetsE_valCodec, hl, encodedBatch]

theorem appendSeq_eq (cs : List (List String)) (hk : cs.length ≤ 255) :
    ∀ (batches : List (List Row × Val)) (file : List Nat),
      (∀ b ∈ batches, GoodBatch cs b) →
      appendSeq valCodec cs batches file = some (file ++ encodedFile cs batches)
  | [], file, _ => by simp [appendSeq, encodedFile]
  | b :: bs, file, h => by
    have hb : GoodBatch cs b := h b (by simp)
    have hbs : ∀ x ∈ bs, GoodBatch cs x := fun x hx => h x (by simp [hx])
    simp only [appendSeq, appendF, appendCore_valCodec cs b hk hb,
      appendSeq_eq cs hk bs (file ++ encodedBatch cs b) hbs, encodedFile,
      List.map_cons, List.flatten_cons, List.append_assoc]

/-- Unfolding of one batch image into the shape the reader's first pattern
match expects. -/
theorem encodedBatch_cons (cs : List (List String)) (b : List Row × Val)
    (rest : List Nat) :
    encodedBatch cs b ++ rest
      = cs.length :: (le32 (encVal b.2).length
          ++ (((setBins cs b.1).map (fun bin => le32 bin.length)).flatten
          ++ (encVal b.2 ++ ((setBins cs b.1).flatten ++ rest)))) := by
  simp [encodedBatch, batchBytes, setBins, List.append_assoc]

theorem setBins_lt (cs : List (List String)) (b : List Row × Val)
    (hg : GoodBatch cs b) :
    ∀ x ∈ setBins cs b.1, x.length < 2 ^ 32 := by
  intro x hx
  simp only [setBins, List.mem_map] at hx
  obtain ⟨set, hset, rfl⟩ := hx
  exact hg.2.2 set hset

theorem batchBytes_length_pos (m : List Nat) (bins : List (List Nat)) :
    0 < (batchBytes m bins).length := by
  simp [batchBytes]

theorem length_le_encodedFile (cs : List (List String))
    (batches : List (List Row × Val)) :
    batches.length ≤ (encodedFile cs batches).length := by
  induction batches with
  | nil => simp [encodedFile]
  | cons b bs ih =>
    have := batchBytes_length_pos (encVal b.2) (setBins cs b.1)
    simp only [encodedFile, List.map_cons, List.flatten_cons,
      List.length_append, List.length_cons]
    simp only [encodedFile] at ih
    simp only [encodedBatch] at *
    omega

theorem iterMetasF_encodedFile (cs : List (List String)) :
    ∀ (batches : List (List Row × Val)) (fuel : Nat),
      (∀ b ∈ batches, GoodBatch cs b) → batches.length < fuel →
      iterMetasF valCodec fuel (encodedFile cs batches)
        = .ok (batches.map (·.2))
  | [], fuel, _, hf => by
    obtain ⟨f, rfl⟩ : ∃ f, fuel = f + 1 := ⟨fuel - 1, by omega⟩
    simp [encodedFile, iterMetasF]
  | b :: bs, fuel, h, hf => by
    obtain ⟨f, rfl⟩ : ∃ f, fuel = f + 1 := ⟨fuel - 1, by omega⟩
    have hb : GoodBatch cs b := h b (by simp)
    have hbs : ∀ x ∈ bs, GoodBatch cs x := fun x hx => h x (by simp [hx])
    have hKbins : (setBins cs b.1).length = cs.length := by simp [setBins]
    have hstep : encodedFile cs (b :: bs)
        = encodedBatch cs b ++ encodedFile cs bs := by
      simp [encodedFile]
    rw [hstep, encodedBatch_cons, iterMetasF, ← hKbins]
    simp only [rdLe32_le32 _ hb.2.1, rdLe32s_bins _ (setBins_lt cs b hb),
      readN_exact, valCodec_dec, decodeBlob_encVal, drop_flatten_sum,
      iterMetasF_encodedFile cs bs f hbs (by simpa using hf), List.map_cons]

theorem readSets_selBins (toDec : List Bool) :
    ∀ (bins : List (List Nat)) (n : Nat) (rest : List Nat),
      readSets toDec (bins.map List.length) (bins.flatten ++ rest) n
        = some (selBins toDec n bins, rest)
  | [], n, rest => by simp [readSets, selBins]
  | b :: bs, n, rest => by
    by_cases hf : toDec.getD n false
    · simp only [List.map_cons, List.flatten_cons, List.append_assoc, readSets,
        if_pos hf, readN_exact, readSets_selBins toDec bs (n + 1) rest,
        selBins]
    · simp only [List.map_cons, List.flatten_cons, List.append_assoc, readSets,
        if_neg hf, List.drop_left, readSets_selBins toDec bs (n + 1) rest,
        selBins]

theorem asArraysList_map (rows : List Row) :
    ∀ set : List String,
      asArraysList (set.map (fun c => Val.vList (colVals rows c)))
        = some (set.map (colVals rows))
  | [] => rfl
  | c :: cs => by
    simp [asArraysList, asArraysList_map rows cs]

theorem asArrays_setValOf (set : List String) (rows : List Row) :
    asArrays (setValOf set rows) = some (set.map (colVals rows)) := by
  simp [asArrays, setValOf, asArraysList_map]

theorem zip_collect (p : String → Bool) (f : String → List Val) :
    ∀ set : List String,
      ((set.map p).zip (set.map f)).filterMap
          (fun q => if q.1 then some q.2 else none)
        = (set.filter p).map f
  | [] => rfl
  | c :: cs => by
    by_cases hc : p c <;>
      simp [List.filterMap_cons, hc, zip_collect p f cs, List.filter_cons]

theorem collectSets_spec (cs : List (List String)) (cols : List String)
    (rows : List Row) :
    ∀ (sets : List (List String)) (n : Nat), cs.drop n = sets →
      collectSets valCodec cs cols
          (selBins (toDecode cs cols) n
            (sets.map (fun set => encVal (setValOf set rows)))) n
        = some ((sets.map (fun set =>
            (set.filter (fun c => cols.contains c)).map
              (fun c => colVals rows c))).flatten)
  | [], n, _ => by simp [collectSets]
  | set :: rest, n, hdrop => by
    have hget : cs[n]? = some set := by
      have := List.getElem?_drop cs n 0
      rw [hdrop] at this
      simpa using this.symm
    have hgetD : cs.getD n [] = set := by
      simp [List.getD, hget]
    have hdrop' : cs.drop (n + 1) = rest := by
      have := List.drop_drop 1 n cs
      rw [hdrop] at this
      simpa [Nat.add_comm] using this.symm
    have hflag : (toDecode cs cols).getD n false
        = set.any (fun c => cols.contains c) := by
      simp [toDecode, List.getD, List.getElem?_map, hget]
    by_cases hf : set.any (fun c => cols.contains c)
    · simp only [List.map_cons, selBins, hflag, hf, if_pos]
      simp only [collectSets, valCodec_dec, decodeBlob_encVal,
        asArrays_setValOf, hgetD, zip_collect,
        collectSets_spec cs cols rows rest (n + 1) hdrop',
        List.flatten_cons]
    · have hnil : set.filter (fun c => cols.contains c) = [] :=
        List.filter_eq_nil_iff.mpr (by simpa [List.any_eq_false] using hf)
      simp only [List.map_cons, selBins, hflag, hf, if_neg, Bool.false_eq_true,
        not_false_iff]
      simp only [collectSets,
        collectSets_spec cs cols rows rest (n + 1) hdrop',
        List.flatten_cons, hnil, List.map_nil, List.nil_append]

theorem collectNames_map (cs : List (List String)) (cols : List String)
    (f : String → List Val) :
    (collectNames cs cols).map f
      = (cs.map (fun set =>
          (set.filter (fun c => cols.contains c)).map f)).flatten := by
  simp only [collectNames, List.map_flatten, List.map_map]
  rfl

theorem iterColsF_encodedFile (cs : List (List String)) (cols : List String) :
    ∀ (batches : List (List Row × Val)) (fuel : Nat),
      (∀ b ∈ batches, GoodBatch cs b) → batches.length < fuel →
      iterColsF valCodec cs cols fuel (encodedFile cs batches)
        = .ok (batches.map (fun b =>
            (collectNames cs cols).map (fun c => colVals b.1 c)))
  | [], fuel, _, hf => by
    obtain ⟨f, rfl⟩ : ∃ f, fuel = f + 1 := ⟨fuel - 1, by omega⟩
    simp [encodedFile, iterColsF]
  | b :: bs, fuel, h, hf => by
    obtain ⟨f, rfl⟩ : ∃ f, fuel = f + 1 := ⟨fuel - 1, by omega⟩
    have hb : GoodBatch cs b := h b (by simp)
    have hbs : ∀ x ∈ bs, GoodBatch cs x := fun x hx => h x (by simp [hx])
    have hKbins : (setBins cs b.1).length = cs.length := by simp [setBins]
    have hstep : encodedFile cs (b :: bs)
        = encodedBatch cs b ++ encodedFile cs bs := by
      simp [encodedFile]
    have hsel := readSets_selBins (toDecode cs cols) (setBins cs b.1) 0
      (encodedFile cs bs)
    have hcoll : collectSets valCodec cs cols
        (selBins (toDecode cs cols) 0 (setBins cs b.1)) 0
        = some ((cs.map (fun set =>
            (set.filter (fun c => cols.contains c)).map
              (fun c => colVals b.1 c))).flatten) :=
      collectSets_spec cs cols b.1 cs 0 rfl
    rw [hstep, encodedBatch_cons, iterColsF, ← hKbins]
    simp only [rdLe32_le32 _ hb.2.1, rdLe32s_bins _ (setBins_lt cs b hb),
      List.drop_left, hsel, hcoll,
      iterColsF_encodedFile cs cols bs f hbs (by simpa using hf),
      List.map_cons, collectNames_map]

/-! ## Validator lemmas -/

theorem readAt_ge (file : List Nat) (pos k : Nat) : pos ≤ (readAt file pos k).2 := by
  unfold readAt
  split <;> simp

theorem readLens_ge (file : List Nat) :
    ∀ (k pos : Nat), pos ≤ (readLens file pos k).2
  | 0, pos => Nat.le_refl _
  | k + 1, pos => by
    have h1 := readAt_ge file pos 4
    rcases hr : readAt file pos 4 with ⟨o, p⟩
    rw [hr] at h1
    cases o with
    | none => simpa [readLens, hr] using h1
    | some bs =>
      have h2 := readLens_ge file k p
      rcases hl : readLens file p k with ⟨o', p'⟩
      rw [hl] at h2
      cases o' <;> simp [readLens, hr, hl] <;> omega

theorem validateGo_ge (file : List Nat) :
    ∀ (fuel pos : Nat), pos ≤ (validateGo fuel file pos).2
  | 0, pos => by simp [validateGo]
  | fuel + 1, pos => by
    unfold validateGo
    by_cases hp : file.length ≤ pos
    · simp [hp]
    · simp only [hp, if_false]
      have h1 := readAt_ge file (pos + 1) 4
      rcases hr : readAt file (pos + 1) 4 with ⟨o, p⟩
      rw [hr] at h1
      have h1' : pos + 1 ≤ p := h1
      cases o with
      | none => simp [validateAfterCount]; omega
      | some mbs =>
        rw [validateAfterCount]
        have h2 := readLens_ge file (file.getD pos 0) p
        rcases hl : readLens file p (file.getD pos 0) with ⟨o', p'⟩
        rw [hl] at h2
        have h2' : p ≤ p' := h2
        cases o' with
        | none => simp [validateAfterLens]; omega
        | some lens =>
          have h3 := validateGo_ge file fuel (p' + leVal mbs + lens.sum)
          simp only [validateAfterLens]
          omega

theorem batchSizeAt_some (file : List Nat) (pos sz : Nat)
    (h : batchSizeAt file pos = some sz) :
    pos < file.length ∧
    pos + 5 + 4 * file.getD pos 0 ≤ file.length ∧
    pos + sz ≤ file.length ∧
    sz = 5 + 4 * file.getD pos 0 + leVal ((file.drop (pos + 1)).take 4)
        + (lensAt file (pos + 5) (file.getD pos 0)).sum := by
  unfold batchSizeAt at h
  split_ifs at h with h1 h2 h3
  · simp only [Option.some.injEq] at h
    exact ⟨h1, h2, by omega, h.symm⟩

theorem readLens_ok (file : List Nat) :
    ∀ (k pos : Nat), pos + 4 * k ≤ file.length →
      readLens file pos k = (some (lensAt file pos k), pos + 4 * k)
  | 0, pos, _ => by simp [readLens, lensAt]
  | k + 1, pos, h => by
    have hread : readAt file pos 4 = (some ((file.drop pos).take 4), pos + 4) := by
      unfold readAt
      rw [if_pos (by omega)]
    have hrec := readLens_ok file k (pos + 4) (by omega)
    simp only [readLens, hread, hrec, lensAt, Prod.mk.injEq]
    exact ⟨by simp, by omega⟩

theorem boundary_le_validate (file : List Nat) :
    ∀ (fuel pos : Nat), validBoundaryGo fuel file pos ≤ (validateGo fuel file pos).2
  | 0, pos => by simp [validateGo, validBoundaryGo]
  | fuel + 1, pos => by
    cases hb : batchSizeAt file pos with
    | none =>
      simp only [validBoundaryGo, hb]
      exact validateGo_ge file (fuel + 1) pos
    | some sz =>
      obtain ⟨h1, h2, h3, hsz⟩ := batchSizeAt_some file pos sz hb
      have hread : readAt file (pos + 1) 4
          = (some ((file.drop (pos + 1)).take 4), pos + 5) := by
        unfold readAt
        rw [if_pos (by omega)]
      have hlens : readLens file (pos + 5) (file.getD pos 0)
          = (some (lensAt file (pos + 5) (file.getD pos 0)),
             pos + 5 + 4 * file.getD pos 0) := by
        have := readLens_ok file (file.getD pos 0) (pos + 5) (by omega)
        simpa [Nat.add_assoc] using this
      simp only [validBoundaryGo, hb, validateGo,
        if_neg (by omega : ¬ file.length ≤ pos), hread, hlens,
        validateAfterCount, validateAfterLens]
      have harg : pos + 5 + 4 * file.getD pos 0
          + leVal ((file.drop (pos + 1)).take 4)
          + (lensAt file (pos + 5) (file.getD pos 0)).sum = pos + sz := by
        omega
      rw [harg]
      exact boundary_le_validate file fuel (pos + sz)

theorem validBoundaryGo_le_length (file : List Nat) :
    ∀ (fuel pos : Nat), pos ≤ file.length →
      validBoundaryGo fuel file pos ≤ file.length
  | 0, _, h => h
  | fuel + 1, pos, h => by
    cases hb : batchSizeAt file pos with
    | none => simpa [validBoundaryGo, hb] using h
    | some sz =>
      obtain ⟨_, _, h3, _⟩ := batchSizeAt_some file pos sz hb
      simp only [validBoundaryGo, hb]
      exact validBoundaryGo_le_length file fuel (pos + sz) h3

theorem writeAt_take (file : List Nat) (pos : Nat) (bs : List Nat) (b : Nat)
    (hb1 : b ≤ pos) (hb2 : b ≤ file.length) :
    (writeAt file pos bs).take b = file.take b := by
  unfold writeAt
  rw [List.append_assoc, List.append_assoc,
    List.take_append_of_le_length (by simp; omega), List.take_take,
    min_eq_left hb1]

/-! ## Pipeline lemmas -/

/-- The S3 invariant: while running, every delivered item's callback
returned `true`; once stopped, the last delivered item is exactly the one
whose callback returned `false`, and all earlier ones returned `true`. -/
def PInv {α : Type} (cb : α → Bool) (s : PipeState α) : Prop :=
  (s.stopped = false → ∀ y ∈ s.delivered, cb y = true) ∧
  (s.stopped = true → ∃ d z, s.delivered = d ++ [z] ∧ cb z = false ∧
    ∀ y ∈ d, cb y = true)

theorem pinit_inv {α : Type} (cb : α → Bool) (items : List α) :
    PInv cb (pinit items) := by
  constructor <;> simp [pinit]

theorem pstep_inv {α : Type} (cb : α → Bool) (s : PipeState α) (a : PAct)
    (h : PInv cb s) : PInv cb (pstep cb s a) := by
  cases a with
  | take =>
    simp only [pstep]
    cases s.pending with
    | nil => exact h
    | cons x rest => exact h
  | fail m => exact h
  | deliver i =>
    simp only [pstep]
    by_cases hs : s.stopped = true
    · rw [if_pos hs]
      exact h
    · have hs' : s.stopped = false := eq_false_of_ne_true hs
      rw [if_neg hs]
      cases hg : s.inflight.get? i with
      | none => exact h
      | some x =>
        constructor
        · intro hstop y hy
          have hcb : cb x = true := by
            simpa using hstop
          rcases List.mem_append.mp hy with hy | hy
          · exact h.1 hs' y hy
          · simp only [List.mem_singleton] at hy
            rw [hy]
            exact hcb
        · intro hstop
          have hcb : cb x = false := by
            simpa using hstop
          exact ⟨s.delivered, x, rfl, hcb, h.1 hs'⟩

theorem prun_inv {α : Type} (cb : α → Bool) (acts : List PAct) :
    ∀ s : PipeState α, PInv cb s → PInv cb (prun cb s acts) := by
  induction acts with
  | nil => exact fun s h => h
  | cons a rest ih => exact fun s h => ih (pstep cb s a) (pstep_inv cb s a h)

/-- Only a stage error writes the shared error slot: on an error-free
schedule the slot stays empty, whatever the callbacks return. -/
theorem prun_err_none {α : Type} (cb : α → Bool) :
    ∀ (acts : List PAct) (s : PipeState α), s.err = none →
      acts.all (fun a => !a.isFail) = true → (prun cb s acts).err = none
  | [], s, hs, _ => hs
  | a :: rest, s, hs, hall => by
    simp only [List.all_cons, Bool.and_eq_true] at hall
    have hstep : (pstep cb s a).err = none := by
      cases a with
      | take =>
        simp only [pstep]
        cases s.pending with
        | nil => exact hs
        | cons x r => exact hs
      | deliver i =>
        simp only [pstep]
        by_cases hstop : s.stopped = true
        · rw [if_pos hstop]
          exact hs
        · rw [if_neg hstop]
          cases s.inflight.get? i with
          | none => exact hs
          | some x => exact hs
      | fail m => simp [PAct.isFail] at hall
    exact prun_err_none cb rest (pstep cb s a) hstep hall.2

/-! ## Misc lemmas for the claims -/

theorem colVals_append (c : String) (rows1 rows2 : List Row) :
    colVals (rows1 ++ rows2) c = colVals rows1 c ++ colVals rows2 c := by
  simp [colVals, List.filterMap_append]

theorem colVals_flatten (c : String) :
    ∀ rss : List (List Row),
      colVals rss.flatten c = (rss.map (fun rows => colVals rows c)).flatten
  | [] => rfl
  | rows :: rss => by
    simp [List.flatten_cons, colVals_append, colVals_flatten c rss]

theorem mem_collectNames (cs : List (List String)) (cols : List String)
    (c : String) (h1 : c ∈ cs.flatten) (h2 : c ∈ cols) :
    c ∈ collectNames cs cols := by
  simp only [collectNames, List.mem_flatten, List.mem_map] at h1 ⊢
  obtain ⟨set, hset, hc⟩ := h1
  exact ⟨set.filter (fun x => cols.contains x), ⟨set, hset, rfl⟩,
    List.mem_filter.mpr ⟨hc, List.elem_eq_true_of_mem h2⟩⟩

theorem encSetsE_ok (cdc : Codec) :
    ∀ (cs : List (List String)) (rows : List Row) (bins : List (List Nat)),
      encSetsE cdc cs rows = .ok bins →
      bins.length = cs.length ∧
      ∀ (n : Nat) (set : List String), cs[n]? = some set →
        ∃ bin, bins[n]? = some bin ∧ cdc.enc (setValOf set rows) = .ok bin
  | [], rows, bins, h => by
    simp only [encSetsE, Except.ok.injEq] at h
    subst h
    simp
  | set :: rest, rows, bins, h => by
    unfold encSetsE at h
    cases he : cdc.enc (setValOf set rows) with
    | error e => rw [he] at h; cases h
    | ok bin =>
      rw [he] at h
      cases hr : encSetsE cdc rest rows with
      | error e => rw [hr] at h; cases h
      | ok bins' =>
        rw [hr] at h
        simp only [Except.ok.injEq] at h
        subst h
        obtain ⟨hlen, hget⟩ := encSetsE_ok cdc rest rows bins' hr
        refine ⟨by simp [hlen], ?_⟩
        intro n s hn
        cases n with
        | zero =>
          simp only [List.getElem?_cons_zero, Option.some.injEq] at hn
          subst hn
          exact ⟨bin, by simp, he⟩
        | succ m =>
          simp only [List.getElem?_cons_succ] at hn ⊢
          exact hget m s hn

theorem flatten_le32_length (bins : List (List Nat)) :
    ((bins.map (fun b => le32 b.length)).flatten).length = 4 * bins.length := by
  induction bins with
  | nil => simp
  | cons b bs ih =>
    simp only [List.map_cons, List.flatten_cons, List.length_append, ih,
      List.length_cons]
    have h4 : (le32 b.length).length = 4 := rfl
    omega

/-! ## Claims -/

/-- **C1** — Round-trip.  For any schema and any sequence of `Append`
calls on a fresh file (each batch well formed: every row carries every
declared column and every blob fits the 4-byte length field, as the data
model requires), iterating the file yields the metadata values in append
order (`IterMetas`), and for every projection of declared column names
`Iter` delivers per batch exactly the column arrays extracted from the
original rows (one array per collected column, identified by
`collectNames`), so the concatenation of the per-batch arrays of each
projected column in delivery order equals that column's values over all
appended rows in append order. -/
theorem c1_round_trip (cs : List (List String)) (batches : List (List Row × Val))
    (hk : cs.length ≤ 255) (hg : ∀ b ∈ batches, GoodBatch cs b) :
    ∃ file, appendSeq valCodec cs batches [] = some file ∧
      iterMetas valCodec file = .ok (batches.map (·.2)) ∧
      ∀ cols : List String, (∀ c ∈ cols, c ∈ cs.flatten) →
        iterCols valCodec cs cols file
          = .ok (batches.map (fun b =>
              (collectNames cs cols).map (fun c => colVals b.1 c))) ∧
        (∀ c ∈ cols, c ∈ collectNames cs cols) ∧
        ∀ c ∈ cols,
          (batches.map (fun b => colVals b.1 c)).flatten
            = colVals (batches.map (·.1)).flatten c := by
  refine ⟨encodedFile cs batches, ?_, ?_, ?_⟩
  · simpa using appendSeq_eq cs hk batches [] hg
  · unfold iterMetas
    exact iterMetasF_encodedFile cs batches _ hg
      (by have := length_le_encodedFile cs batches; omega)
  · intro cols hcols
    refine ⟨?_, ?_, ?_⟩
    · unfold iterCols
      exact iterColsF_encodedFile cs cols batches _ hg
        (by have := length_le_encodedFile cs batches; omega)
    · exact fun c hc => mem_collectNames cs cols c (hcols c hc) hc
    · intro c _
      rw [colVals_flatten c (batches.map (fun b => b.1)), List.map_map]
      rfl

/-- Concrete schema for the C1 witness: sets `{A}` and `{B}`. -/
def wcs : List (List String) := [["A"], ["B"]]

/-- Concrete batches for the C1 witness. -/
def wbatches : List (List Row × Val) :=
  [([[("A", Val.vInt 1), ("B", Val.vInt 2)],
     [("A", Val.vInt 3), ("B", Val.vInt 4)]], Val.vInt 10),
   ([[("A", Val.vInt 5), ("B", Val.vInt 6)]], Val.vInt 20)]

theorem c1_round_trip_witness :
    ∃ file, appendSeq valCodec wcs wbatches [] = some file ∧
      iterMetas valCodec file = .ok (wbatches.map (·.2)) ∧
      iterCols valCodec wcs ["B", "A"] file
        = .ok (wbatches.map (fun b =>
            (collectNames wcs ["B", "A"]).map (fun c => colVals b.1 c))) := by
  obtain ⟨file, h1, h2, h3⟩ := c1_round_trip wcs wbatches (by decide) (by decide)
  exact ⟨file, h1, h2, (h3 ["B", "A"] (by decide)).1⟩

/-- **C2** — Frame layout.  Every batch a successful `Append` writes is a
header — one count byte holding `K` (the number of column sets), a
little-endian 4-byte metadata length, and `K` little-endian 4-byte
column-set lengths — followed by the metadata blob and the `K` encoded
column-set blobs in factory index order, so the bytes grow by exactly
`1 + 4 + 4K + Lm + ΣLᵢ`. -/
theorem c2_frame_layout (cdc : Codec) (cs : List (List String)) (rows : List Row)
    (meta : Val) (file out : List Nat)
    (h : appendF cdc cs rows meta file = (ARes.ok, out)) :
    ∃ (metaBin : List Nat) (bins : List (List Nat)),
      cdc.enc meta = .ok metaBin ∧
      bins.length = cs.length ∧
      cs.length ≤ 255 ∧
      (∀ (n : Nat) (set : List String), cs[n]? = some set →
        ∃ bin, bins[n]? = some bin ∧ cdc.enc (setValOf set rows) = .ok bin) ∧
      out = file ++ ([cs.length] ++ le32 metaBin.length
          ++ (bins.map (fun b => le32 b.length)).flatten ++ metaBin
          ++ bins.flatten) ∧
      out.length = file.length
          + (1 + 4 + 4 * cs.length + metaBin.length
            + (bins.map List.length).sum) := by
  unfold appendF at h
  cases hc : appendCore cdc cs rows meta with
  | panic => rw [hc] at h; simp at h
  | fail m => rw [hc] at h; simp at h
  | payload bs =>
    rw [hc] at h
    simp only [Prod.mk.injEq] at h
    unfold appendCore at hc
    cases he : cdc.enc meta with
    | error e =>
      simp only [he] at hc
      exact CoreRes.noConfusion hc
    | ok metaBin =>
      simp only [he] at hc
      by_cases hp : pivotOk cs rows
      · rw [if_pos hp] at hc
        cases hs : encSetsE cdc cs rows with
        | error e =>
          simp only [hs] at hc
          exact CoreRes.noConfusion hc
        | ok bins =>
          simp only [hs] at hc
          by_cases h255 : 255 < bins.length
          · rw [if_pos h255] at hc
            exact CoreRes.noConfusion hc
          · rw [if_neg h255] at hc
            simp only [CoreRes.payload.injEq] at hc
            obtain ⟨hlen, hget⟩ := encSetsE_ok cdc cs rows bins hs
            have hbatch : bs = batchBytes metaBin bins := hc.symm
            refine ⟨metaBin, bins, rfl, hlen, by omega, hget, ?_, ?_⟩
            · rw [← h.2, hbatch]
              simp [batchBytes, hlen, List.append_assoc]
            · rw [← h.2, hbatch]
              have h4 : ((bins.map (fun b => le32 b.length)).flatten).length
                  = 4 * bins.length := flatten_le32_length bins
              have h5 : (le32 metaBin.length).length = 4 := rfl
              have hsum : (bins.flatten).length = (bins.map List.length).sum :=
                List.length_flatten bins
              simp only [batchBytes, List.length_append, List.length_cons,
                List.length_nil, h4, h5, hlen]
              omega
      · rw [if_neg hp] at hc
        exact CoreRes.noConfusion hc

theorem c2_frame_layout_witness :
    ∃ (metaBin : List Nat) (bins : List (List Nat)),
      valCodec.enc (Val.vInt 0) = .ok metaBin ∧
      bins.length = [["A"]].length ∧
      [["A"]].length ≤ 255 ∧
      (∀ (n : Nat) (set : List String), [["A"]][n]? = some set →
        ∃ bin, bins[n]? = some bin ∧
          valCodec.enc (setValOf set [[("A", Val.vInt 1)]]) = .ok bin) ∧
      (appendF valCodec [["A"]] [[("A", Val.vInt 1)]] (Val.vInt 0) []).2
        = [] ++ ([[["A"]].length] ++ le32 metaBin.length
            ++ (bins.map (fun b => le32 b.length)).flatten ++ metaBin
            ++ bins.flatten) ∧
      ((appendF valCodec [["A"]] [[("A", Val.vInt 1)]] (Val.vInt 0) []).2).length
        = ([] : List Nat).length + (1 + 4 + 4 * [["A"]].length + metaBin.length
            + (bins.map List.length).sum) :=
  c2_frame_layout valCodec [["A"]] [[("A", Val.vInt 1)]] (Val.vInt 0) []
    (appendF valCodec [["A"]] [[("A", Val.vInt 1)]] (Val.vInt 0) []).2
    (by decide)

/-- **C3 counterexample** — On the 9-byte file `[1,0,0,0,0,5,0,0,0]`
(one truncated batch: the header declares one column set of 5 bytes, but
no payload follows), the validation scan parses the header, seeks 5
bytes past EOF — which succeeds — reads EOF there and stops with no
error at offset 14.  The last valid batch boundary is 0 and the file is
9 bytes long: the scan does **not** leave the write offset at the last
valid batch boundary, and the next `Append` writes beyond EOF across a
zero-filled gap, refuting the claim as stated. -/
theorem c3_counterexample :
    validateRun [1, 0, 0, 0, 0, 5, 0, 0, 0] = (none, 14) ∧
    validBoundary [1, 0, 0, 0, 0, 5, 0, 0, 0] = 0 ∧
    ([1, 0, 0, 0, 0, 5, 0, 0, 0] : List Nat).length = 9 := by
  decide

/-- **C3 amended** — The validation scan leaves the write offset **at or
after** the last valid batch boundary (never inside the valid prefix),
though possibly past EOF; consequently a subsequent `Append`, writing at
that offset, never overwrites any byte of the valid prefix.  (The
boundary itself lies within the file.) -/
theorem c3_amended (file : List Nat) :
    validBoundary file ≤ (validateRun file).2 ∧
    validBoundary file ≤ file.length ∧
    ∀ (pos : Nat) (bs : List Nat), validBoundary file ≤ pos →
      (writeAt file pos bs).take (validBoundary file)
        = file.take (validBoundary file) := by
  refine ⟨boundary_le_validate file _ 0,
    validBoundaryGo_le_length file _ 0 (by omega), ?_⟩
  intro pos bs hpos
  exact writeAt_take file pos bs (validBoundary file) hpos
    (validBoundaryGo_le_length file _ 0 (by omega))

theorem c3_amended_witness :
    validBoundary [1, 0, 0, 0, 0, 5, 0, 0, 0]
        ≤ (validateRun [1, 0, 0, 0, 0, 5, 0, 0, 0]).2 ∧
    (writeAt [1, 0, 0, 0, 0, 5, 0, 0, 0] 14 [7]).take
        (validBoundary [1, 0, 0, 0, 0, 5, 0, 0, 0])
      = ([1, 0, 0, 0, 0, 5, 0, 0, 0] : List Nat).take
        (validBoundary [1, 0, 0, 0, 0, 5, 0, 0, 0]) :=
  ⟨(c3_amended [1, 0, 0, 0, 0, 5, 0, 0, 0]).1,
   (c3_amended [1, 0, 0, 0, 0, 5, 0, 0, 0]).2.2 14 [7] (by decide)⟩

/-- **C4 counterexample** — Schema `[{A}, {B}]`, one appended batch with
`A = 1`, `B = 2`, projection `cols = ["B", "A"]`.  `Iter` invokes the
callback with the arrays `[[1], [2]]`: the 0-th argument is column `A`'s
array `[1]`, not the array of `cols[0] = "B"` (which is `[2]`).  The
callback arguments follow schema order, not the order of `cols`,
refuting the claim as stated. -/
theorem c4_counterexample :
    iterCols valCodec [["A"], ["B"]] ["B", "A"]
        ((appendSeq valCodec [["A"], ["B"]]
          [([[("A", Val.vInt 1), ("B", Val.vInt 2)]], Val.vInt 0)] []).getD [])
      = .ok [[[Val.vInt 1], [Val.vInt 2]]] ∧
    colVals [[("A", Val.vInt 1), ("B", Val.vInt 2)]] "B" = [Val.vInt 2] ∧
    ([Val.vInt 1] : List Val) ≠ [Val.vInt 2] := by
  decide

/-- **C4 amended** — For every batch and projection, `Iter` passes one
array per *collected* column, and the `i`-th callback argument is the
array for the `i`-th element of `collectNames` — the requested columns
in set index order and field declaration order — not for `cols[i]`. -/
theorem c4_amended (cs : List (List String)) (cols : List String)
    (rows : List Row) (meta : Val) (hk : cs.length ≤ 255)
    (hg : GoodBatch cs (rows, meta)) :
    ∃ file, appendSeq valCodec cs [(rows, meta)] [] = some file ∧
      iterCols valCodec cs cols file
        = .ok [(collectNames cs cols).map (fun c => colVals rows c)] ∧
      ∀ (i : Nat) (c : String), (collectNames cs cols).get? i = some c →
        ((collectNames cs cols).map (fun c => colVals rows c)).get? i
          = some (colVals rows c) := by
  have hg' : ∀ b ∈ [(rows, meta)], GoodBatch cs b := by
    intro b hb
    rw [List.mem_singleton] at hb
    subst hb
    exact hg
  refine ⟨encodedFile cs [(rows, meta)], ?_, ?_, ?_⟩
  · simpa using appendSeq_eq cs hk [(rows, meta)] [] hg'
  · unfold iterCols
    have := iterColsF_encodedFile cs cols [(rows, meta)]
      ((encodedFile cs [(rows, meta)]).length + 1) hg'
      (by have := length_le_encodedFile cs [(rows, meta)]; omega)
    simpa using this
  · intro i c hi
    rw [List.get?_map, hi]
    rfl

theorem c4_amended_witness :
    ∃ file, appendSeq valCodec [["A"], ["B"]]
        [([[("A", Val.vInt 1), ("B", Val.vInt 2)]], Val.vInt 0)] [] = some file ∧
      iterCols valCodec [["A"], ["B"]] ["B", "A"] file
        = .ok [(collectNames [["A"], ["B"]] ["B", "A"]).map
            (fun c => colVals [[("A", Val.vInt 1), ("B", Val.vInt 2)]] c)] := by
  obtain ⟨file, h1, h2, _⟩ := c4_amended [["A"], ["B"]] ["B", "A"]
    [[("A", Val.vInt 1), ("B", Val.vInt 2)]] (Val.vInt 0) (by decide) (by decide)
  exact ⟨file, h1, h2⟩

/-- A factory whose sets `0` and `1` both declare column `A` (for C5). -/
def dupFactory : Nat → Option (List String) :=
  fun n => if n < 2 then some ["A"] else none

/-- **C5 counterexample** — `New` on a factory in which column name `A`
appears in two different sets succeeds and returns the handle: the Go
code performs no cross-set collision check, so no `Schema` error is
raised at open, refuting the claim as stated. -/
theorem c5_counterexample :
    newFile dupFactory 10 = .ok [["A"], ["A"]] ∧
    ¬ ([["A"], ["A"]] : List (List String)).flatten.Nodup := by
  constructor
  · decide
  · decide

/-- **C5 amended** — When a column name collides across sets, `New` still
succeeds, returning exactly the enumerated sets, and the handle is
usable: appends succeed and metadata iteration round-trips. -/
theorem c5_amended (factory : Nat → Option (List String)) (fuel : Nat)
    (hdup : ¬ (enumSets factory fuel 0).flatten.Nodup)
    (batches : List (List Row × Val))
    (hk : (enumSets factory fuel 0).length ≤ 255)
    (hg : ∀ b ∈ batches, GoodBatch (enumSets factory fuel 0) b) :
    newFile factory fuel = .ok (enumSets factory fuel 0) ∧
    ∃ file, appendSeq valCodec (enumSets factory fuel 0) batches []
        = some file ∧
      iterMetas valCodec file = .ok (batches.map (·.2)) := by
  refine ⟨rfl, encodedFile (enumSets factory fuel 0) batches, ?_, ?_⟩
  · simpa using appendSeq_eq _ hk batches [] hg
  · unfold iterMetas
    exact iterMetasF_encodedFile _ batches _ hg
      (by have := length_le_encodedFile (enumSets factory fuel 0) batches; omega)

theorem c5_amended_witness :
    newFile dupFactory 10 = .ok (enumSets dupFactory 10 0) ∧
    ∃ file, appendSeq valCodec (enumSets dupFactory 10 0)
        [([[("A", Val.vInt 5)]], Val.vBool true)] [] = some file ∧
      iterMetas valCodec file
        = .ok (([([[("A", Val.vInt 5)]], Val.vBool true)]
            : List (List Row × Val)).map (·.2)) :=
  c5_amended dupFactory 10 (by decide) _ (by decide) (by decide)

/-- **C6 counterexample** — Schema `[{A}]`, one row that has only
attribute `B`: `Append` panics (the invalid `reflect.Value` returned by
`FieldByName("A")` makes `Type()` panic) instead of returning a `Schema`
error value, refuting the claim as stated.  No bytes are written. -/
theorem c6_counterexample :
    appendF valCodec [["A"]] [[("B", Val.vInt 1)]] (Val.vInt 0) []
      = (ARes.panicked, []) := by
  decide

/-- **C6 amended** — When the rows slice is non-empty and some row lacks
a declared column, `Append` crashes with a reflection panic — it does
not return an error value — and the file is unchanged because the panic
occurs before any byte is written (both on a validated handle and on the
first append). -/
theorem c6_amended (cdc : Codec) (cs : List (List String)) (rows : List Row)
    (meta : Val) (file : List Nat) (mb : List Nat)
    (henc : cdc.enc meta = .ok mb) (hne : rows ≠ [])
    (hmiss : ∃ c ∈ cs.flatten, ∃ r ∈ rows, rowField r c = none) :
    appendF cdc cs rows meta file = (ARes.panicked, file) ∧
    firstAppend cdc cs file rows meta = (ARes.panicked, file) := by
  have hpiv : pivotOk cs rows = false := by
    obtain ⟨c, hc, r, hr, hnone⟩ := hmiss
    have hinner : rows.all (fun r => (rowField r c).isSome) = false := by
      rw [List.all_eq_false]
      exact ⟨r, hr, by simp [hnone]⟩
    have houter : cs.flatten.all
        (fun c => rows.all (fun r => (rowField r c).isSome)) = false := by
      rw [List.all_eq_false]
      exact ⟨c, hc, by simp [hinner]⟩
    unfold pivotOk
    rw [houter]
    cases rows with
    | nil => cases hne rfl
    | cons r0 rs => simp
  have hcore : appendCore cdc cs rows meta = CoreRes.panic := by
    unfold appendCore
    simp only [henc, hpiv]
    simp
  exact ⟨by simp [appendF, hcore], by simp [firstAppend, hcore]⟩

theorem c6_amended_witness :
    appendF valCodec [["A"]] [[("B", Val.vInt 2)]] (Val.vInt 3) [9]
      = (ARes.panicked, [9]) ∧
    firstAppend valCodec [["A"]] [9] [[("B", Val.vInt 2)]] (Val.vInt 3)
      = (ARes.panicked, [9]) :=
  c6_amended valCodec [["A"]] [[("B", Val.vInt 2)]] (Val.vInt 3) [9]
    (encVal (Val.vInt 3)) rfl (by decide) (by decide)

/-- **C7** — Encoding-failure atomicity.  Whenever encoding the metadata
fails, or the pivot succeeds and encoding some column set fails, `Append`
returns the error and the file bytes are exactly as before the call — in
the source all encoding happens before the writer lock is taken and any
byte is written (this holds both on a validated handle and on the first
append, where the write offset is also untouched). -/
theorem c7_encode_atomic (cdc : Codec) (cs : List (List String))
    (rows : List Row) (meta : Val) (file : List Nat)
    (h : (∃ e, cdc.enc meta = .error e) ∨
         (pivotOk cs rows = true ∧ ∃ e, encSetsE cdc cs rows = .error e)) :
    ∃ m, appendF cdc cs rows meta file = (ARes.failed m, file) ∧
      firstAppend cdc cs file rows meta = (ARes.failed m, file) := by
  have hfail : ∃ m, appendCore cdc cs rows meta = CoreRes.fail m := by
    rcases h with ⟨e, he⟩ | ⟨hp, e, hs⟩
    · exact ⟨"encode meta", by unfold appendCore; simp [he]⟩
    · cases he : cdc.enc meta with
      | error e' => exact ⟨"encode meta", by unfold appendCore; simp [he]⟩
      | ok mb => exact ⟨e, by unfold appendCore; simp [he, hp, hs]⟩
  obtain ⟨m, hm⟩ := hfail
  exact ⟨m, by simp [appendF, hm], by simp [firstAppend, hm]⟩

/-- A codec whose encoder rejects boolean values (encode failures are a
codec-adapter matter; the engine only propagates them). -/
def noBoolCodec : Codec where
  enc := fun v =>
    match v with
    | .vBool _ => .error "unsupported value"
    | _ => .ok (encVal v)
  dec := decodeBlob

theorem c7_encode_atomic_witness :
    ∃ m, appendF noBoolCodec [["A"]] [] (Val.vBool true) [3]
        = (ARes.failed m, [3]) ∧
      firstAppend noBoolCodec [["A"]] [3] [] (Val.vBool true)
        = (ARes.failed m, [3]) :=
  c7_encode_atomic noBoolCodec [["A"]] [] (Val.vBool true) [3]
    (Or.inl ⟨"unsupported value", rfl⟩)

/-- **C8 counterexample** — On the file `[1, 0]` the validation scan
fails structurally (`read meta length`: the count byte parses but the
4-byte metadata length is truncated), yet the first `Append` reports
success: the Go code invokes `f.validate()` and discards its return
value, so the error is never surfaced to the caller, refuting the claim
as stated. -/
theorem c8_counterexample :
    (validateRun [1, 0]).1 = some "read meta length" ∧
    (firstAppend valCodec [["A"]] [1, 0] [] (Val.vInt 0)).1 = ARes.ok := by
  decide

/-- **C8 amended** — The first `Append` discards the validation error
entirely: its returned status is a function of the batch alone and is
independent of the existing file contents — in particular it is the same
whether the validation scan succeeded or failed. -/
theorem c8_amended (cdc : Codec) (cs : List (List String)) (rows : List Row)
    (meta : Val) (file1 file2 : List Nat) :
    (firstAppend cdc cs file1 rows meta).1
      = (firstAppend cdc cs file2 rows meta).1 := by
  unfold firstAppend
  cases appendCore cdc cs rows meta <;> rfl

/-- **C9** — Early-termination promptness.  In the reader pipeline
(the skeleton shared by `IterMetas`, `Iter` and `IterAll`: S3 is the only
stage invoking the user callback, it processes delivered items serially
and stops everything at the first `false`), for every item sequence,
callback, and decoder schedule: if the callback invocation at position
`j` returned `false`, the total number of invocations is exactly
`j + 1` — no callback runs after a `false` return — and, on a schedule
in which no stage raised an error, the iteration returns without error:
the shared error slot that the iteration function returns stays empty,
because a `false` callback return never writes it (cancellation is not
an error). -/
theorem c9_early_termination {α : Type} (items : List α) (cb : α → Bool)
    (acts : List PAct) (j : Nat) (x : α)
    (hx : (prun cb (pinit items) acts).delivered.get? j = some x)
    (hfalse : cb x = false) :
    (prun cb (pinit items) acts).delivered.length = j + 1 ∧
    (acts.all (fun a => !a.isFail) = true →
      (prun cb (pinit items) acts).err = none) := by
  constructor
  · have hinv := prun_inv cb acts (pinit items) (pinit_inv cb items)
    by_cases hs : (prun cb (pinit items) acts).stopped = true
    · obtain ⟨d, z, hdz, hz, hd⟩ := hinv.2 hs
      rw [hdz] at hx ⊢
      rcases lt_trichotomy j d.length with hj | hj | hj
      · rw [List.get?_append hj] at hx
        have hmem : x ∈ d := List.get?_mem hx
        rw [hd x hmem] at hfalse
        cases hfalse
      · simp [List.length_append, hj]
      · have hlen : (d ++ [z]).length ≤ j := by
          simp only [List.length_append, List.length_cons, List.length_nil]
          omega
        rw [List.get?_len_le hlen] at hx
        cases hx
    · have hs' := eq_false_of_ne_true hs
      have hcb := hinv.1 hs' x (List.get?_mem hx)
      rw [hcb] at hfalse
      cases hfalse
  · exact fun hna => prun_err_none cb acts (pinit items) rfl hna

theorem c9_early_termination_witness :
    (prun (fun n => n < 25) (pinit [10, 20, 30])
      [PAct.take, PAct.deliver 0, PAct.take, PAct.deliver 0,
       PAct.take, PAct.deliver 0]).delivered.length = 2 + 1 ∧
    (prun (fun n => n < 25) (pinit [10, 20, 30])
      [PAct.take, PAct.deliver 0, PAct.take, PAct.deliver 0,
       PAct.take, PAct.deliver 0]).err = none := by
  have h := c9_early_termination [10, 20, 30] (fun n => n < 25)
    [PAct.take, PAct.deliver 0, PAct.take, PAct.deliver 0,
     PAct.take, PAct.deliver 0] 2 30 (by decide) (by decide)
  exact ⟨h.1, h.2 (by decide)⟩

/-- **C10** — Order violation under parallel decoding.  The channel-based
`Iter` pipeline has no reordering stage between the parallel decoders and
the callback loop: with two decoder tasks and two batches, the schedule
in which both decoders take a batch and the second finishes first
delivers batch 2's columns to the callback before batch 1's — the
callback order is `[2, 1]`, not the on-disk order `[1, 2]`. -/
theorem c10_reorder_schedule :
    (prun (fun _ => true) (pinit [1, 2])
      [PAct.take, PAct.take, PAct.deliver 1, PAct.deliver 0]).delivered
      = [2, 1] ∧ ([2, 1] : List Nat) ≠ [1, 2] := by
  decide

end Rcf
